import Mathlib

/-!
Verification development for the go-arrow-json2csv2schema repository.

The Go sources are embedded shallowly:
  - Go strings are modelled as Lean `String`.  Keys are compared with the
    lexicographic order on strings; for UTF-8 encoded text the byte-wise
    lexicographic order used by Go's `slices.Sort` coincides with the
    code-point lexicographic order modelled here, because UTF-8 encoding is
    monotone with respect to code points.
  - `float64` values decoded from JSON are modelled by the exact rational
    value (`ℚ`) they denote; `fmt.Sprintf "%f"` is modelled by correctly
    rounded fixed-point formatting with six fractional digits (ties to even,
    as in Go's strconv).
  - `map[string]any` is modelled as an association list with no duplicate
    keys (Go maps cannot hold duplicate keys); the list order is arbitrary,
    which models the unspecified iteration order of a Go map.
  - fallible Go functions returning `(T, error)` are modelled with `Except`.
-/

/-- Decoded JSON values, as produced by Go's `encoding/json` unmarshalling
into `any`: strings, numbers (`float64`, modelled by its exact rational
value), booleans, null, arrays and nested objects. -/
inductive Js where
  | str : String → Js
  | num : ℚ → Js
  | bool : Bool → Js
  | null : Js
  | arr : List Js → Js
  | obj : List (String × Js) → Js
deriving Repr

/-- Left brace character, written via its code point. -/
def lbraceC : Char := Char.ofNat 123

/-- Right brace character, written via its code point. -/
def rbraceC : Char := Char.ofNat 125

/-- Go's `strings.Split` for a single-character separator, on char lists. -/
def splitOnChar (sep : Char) : List Char → List (List Char)
  | [] => [[]]
  | c :: rest =>
    if c = sep then
      [] :: splitOnChar sep rest
    else
      match splitOnChar sep rest with
      | [] => [[c]]
      | s :: ss => (c :: s) :: ss

/-- Decimal digits with explicit fuel (structural recursion, so that the
kernel can evaluate it); `fuel > n` always suffices since `n / 10 < n`. -/
def natDigitsAux (fuel : Nat) (n : Nat) : List Nat :=
  match fuel with
  | 0 => []
  | fuel + 1 => if n < 10 then [n] else natDigitsAux fuel (n / 10) ++ [n % 10]

/-- Decimal digits of a natural number, most significant first. -/
def natDigits (n : Nat) : List Nat := natDigitsAux (n + 1) n

/-- Render a digit (0..9) as a character. -/
def digitChar (d : Nat) : Char := Char.ofNat (48 + d)

/-- Decimal rendering of a natural number (model of Go's integer part
rendering inside `strconv.FormatFloat`). -/
def natDecimal (n : Nat) : List Char := (natDigits n).map digitChar

/-- Zero-pad a digit list on the left to width `w`. -/
def zeroPad (w : Nat) (ds : List Char) : List Char :=
  List.replicate (w - ds.length) '0' ++ ds

/-- Round `n / d` (with `d > 0`) to the nearest integer, ties to even, as
Go's `strconv` rounds decimal conversions. -/
def roundHalfEven (n : ℤ) (d : ℤ) : ℤ :=
  let q := Int.fdiv n d
  let r := n - q * d
  if 2 * r < d then q
  else if d < 2 * r then q + 1
  else if q % 2 = 0 then q else q + 1

/-- Model of Go's `fmt.Sprintf("%f", x)` on the exact rational value of a
float64: fixed-point, exactly six digits after the decimal point, no
exponent, correctly rounded. -/
def formatFloat6 (q : ℚ) : String :=
  let m : ℤ := roundHalfEven (q.num * 1000000) (q.den : ℤ)
  let sign : List Char := if m < 0 then ['-'] else []
  let a : Nat := m.natAbs
  String.mk (sign ++ natDecimal (a / 1000000) ++ '.' :: zeroPad 6 (natDecimal (a % 1000000)))

/-- Go's `strconv.FormatBool`. -/
def formatBool (b : Bool) : String := if b then "true" else "false"

/-- Lexicographic less-or-equal on character lists.  For UTF-8 encoded
text this code-point order coincides with the byte-wise order Go uses to
compare strings, because UTF-8 encoding is monotone in the code point. -/
def charListLe : List Char → List Char → Bool
  | [], _ => true
  | _ :: _, [] => false
  | a :: as, b :: bs => if a < b then true else if b < a then false else charListLe as bs

/-- Go's `<=` on strings (lexicographic byte order), on the model. -/
def strLe (a b : String) : Bool := charListLe a.data b.data

/-- The order `strLe` as a relation, for use with sorting. -/
def StrLe (a b : String) : Prop := strLe a b = true

instance : DecidableRel StrLe := fun a b => inferInstanceAs (Decidable (strLe a b = true))

/-- Strict version of `StrLe`. -/
def StrLt (a b : String) : Prop := StrLe a b ∧ a ≠ b

/-- A concrete rational given by numerator and denominator in lowest terms
(used to write down the exact values of concrete float64 inputs). -/
def qr (n : Int) (d : Nat) (h1 : d ≠ 0) (h2 : n.natAbs.Coprime d) : ℚ :=
  ⟨n, d, h1, h2⟩

/-- Whitespace set trimmed by Go's `strings.TrimSpace` (Unicode White_Space). -/
def isGoSpace (c : Char) : Bool :=
  c = ' ' || c = '\t' || c = '\n' || (c.toNat = 11) || (c.toNat = 12) ||
  c = '\r' || (c.toNat = 0x85) || (c.toNat = 0xA0) || (c.toNat = 0x1680) ||
  (0x2000 ≤ c.toNat && c.toNat ≤ 0x200A) || (c.toNat = 0x2028) ||
  (c.toNat = 0x2029) || (c.toNat = 0x202F) || (c.toNat = 0x205F) ||
  (c.toNat = 0x3000)

/-- Go's `strings.TrimSpace`, on char lists. -/
def trimSpaceChars (l : List Char) : List Char :=
  ((l.dropWhile isGoSpace).reverse.dropWhile isGoSpace).reverse

/-- Go's `strings.TrimSpace`. -/
def trimSpace (s : String) : String := String.mk (trimSpaceChars s.data)

/-- Escaping of one character inside a JSON string literal, following Go's
`encoding/json` encoder with its default HTML escaping: quote and backslash
get a backslash escape, newline/carriage-return/tab use the short escapes,
other control characters and the HTML-sensitive characters `<`, `>`, `&`
use `\u00XX`-style escapes, everything else is passed through. -/
def escapeJsonChar (c : Char) : List Char :=
  if c = '"' then ['\\', '"']
  else if c = '\\' then ['\\', '\\']
  else if c = '\n' then ['\\', 'n']
  else if c = '\r' then ['\\', 'r']
  else if c = '\t' then ['\\', 't']
  else if c.toNat < 32 || c = '<' || c = '>' || c = '&' then
    ['\\', 'u', '0', '0', digitChar (c.toNat / 16 / 10 * 39 + c.toNat / 16),
      digitChar (c.toNat % 16 / 10 * 39 + c.toNat % 16)]
  else [c]

/-- Body (between the quotes) of the JSON string literal encoding `s`. -/
def escapeJsonBody (s : String) : List Char := s.data.flatMap escapeJsonChar

/-- Go's `encoding/json` encoding of a Go string: a quoted, escaped literal. -/
def encodeJsonString (s : String) : String :=
  String.mk ('"' :: escapeJsonBody s ++ ['"'])

/-- Join a list of strings with a separator (Go's `strings.Join`). -/
def joinWith (sep : String) : List String → String
  | [] => ""
  | [x] => x
  | x :: xs => x ++ sep ++ joinWith sep xs

/-- Model of Go's `encoding/json` compact number encoding of a float64.
Go emits the shortest decimal that round-trips; on the exact rational values
arising in this development that coincides with the plain decimal rendering
without trailing fractional zeros modelled here.  No claim depends on this
encoding (it is only reachable for numbers nested inside arrays/objects). -/
def encodeJsonNumber (q : ℚ) : String :=
  let sign : List Char := if q.num < 0 then ['-'] else []
  let a : Nat := q.num.natAbs
  let ip : List Char := natDecimal (a / q.den)
  let rest : Nat := a % q.den
  if rest = 0 then String.mk (sign ++ ip)
  else
    let fr : Nat := rest * 1000000 / q.den
    String.mk (sign ++ ip ++ '.' :: (zeroPad 6 (natDecimal fr)).reverse.dropWhile (· = '0') |>.reverse)

/-- Insertion sort of object entries by key, ascending: Go's
`encoding/json` marshals maps with keys in sorted order. -/
def sortEncodedEntries (l : List (String × String)) : List (String × String) :=
  List.insertionSort (fun a b => StrLe a.1 b.1) l

mutual

/-- Compact JSON encoding of a decoded value, as produced by Go's
`encoding/json` encoder (map keys sorted, no insignificant whitespace). -/
def encodeJson : Js → String
  | .str s => encodeJsonString s
  | .num q => encodeJsonNumber q
  | .bool b => formatBool b
  | .null => "null"
  | .arr xs => "[" ++ joinWith "," (encodeJsonList xs) ++ "]"
  | .obj kvs =>
    "\x7b" ++
      joinWith ","
        ((sortEncodedEntries (encodeJsonEntries kvs)).map
          (fun p => encodeJsonString p.1 ++ ":" ++ p.2)) ++ "\x7d"

/-- Compact encodings of the elements of a JSON array. -/
def encodeJsonList : List Js → List String
  | [] => []
  | x :: xs => encodeJson x :: encodeJsonList xs

/-- Entries of a JSON object with their values compactly encoded. -/
def encodeJsonEntries : List (String × Js) → List (String × String)
  | [] => []
  | (k, v) :: xs => (k, encodeJson v) :: encodeJsonEntries xs

end

/-- Embedding of `val2str` (src/json2schema.go, lines 76-94): a string is
returned as is; a float64 is formatted with `fmt.Sprintf "%f"`; a bool with
`strconv.FormatBool`; any other value is encoded by a `json.Encoder` (which
appends a newline) and the result is trimmed with `strings.TrimSpace`.
In the model the encoder cannot fail (it cannot fail in Go either on values
decoded from JSON), so the function is total. -/
def val2str : Js → String
  | .str s => s
  | .num q => formatFloat6 q
  | .bool b => formatBool b
  | v => trimSpace (encodeJson v ++ "\n")

/-- Errors of the json2schema package (src/json2schema.go lines 20-23):
`ErrKeyNotFound` carries the offending key (the Go code wraps it with the
key using `fmt.Errorf`); `ErrNoCsvRecordBatchGot` is the distinct
"no csv record batch got" error. -/
inductive J2SErr where
  | keyNotFound (key : String)
  | noCsvRecordBatchGot
deriving Repr, DecidableEq

deriving instance DecidableEq for Except

/-- A decoded Go `map[string]any` (type `JsonMapObject` in the source):
an association list of entries with no duplicate keys (a Go map cannot hold
two entries with the same key).  The list order is arbitrary, modelling the
unspecified iteration order of a Go map. -/
structure JsonMapObject where
  entries : List (String × Js)
  nodupKeys : (entries.map Prod.fst).Nodup

/-- Go map indexing `jsonMap[k]` with its `ok` flag, as an `Option`. -/
def mapLookup (j : JsonMapObject) (k : String) : Option Js :=
  (j.entries.find? (fun p => p.1 == k)).map Prod.snd

/-- Embedding of `MapToHeaderStrsSorted` (src/json2schema.go lines 69-74):
collect the map's keys and sort them ascending with `slices.Sort`
(lexicographic byte order on strings).  The Go function always returns a
nil error, so the embedding is total.  Since the keys are duplicate-free,
the sorted permutation is unique and any correct sort (here insertion sort)
computes the same list as Go's `slices.Sort`. -/
def MapToHeaderStrsSorted (j : JsonMapObject) : List String :=
  List.insertionSort StrLe (j.entries.map Prod.fst)

/-- The loop body sequence of `MapToValueStrsSorted`: for each key, look it
up (error `keyNotFound` if absent) and stringify the value with `val2str`
(total in the model, as for values decoded from JSON in Go). -/
def valStrsForKeys (j : JsonMapObject) : List String → Except J2SErr (List String)
  | [] => .ok []
  | k :: ks =>
    match mapLookup j k with
    | none => .error (.keyNotFound k)
    | some v =>
      match valStrsForKeys j ks with
      | .error e => .error e
      | .ok rest => .ok (val2str v :: rest)

/-- Embedding of `MapToValueStrsSorted` (src/json2schema.go lines 96-116):
derive the sorted key list, then stringify the value of each key in that
order. -/
def MapToValueStrsSorted (j : JsonMapObject) : Except J2SErr (List String) :=
  valStrsForKeys j (MapToHeaderStrsSorted j)

/-- Characters that force quoting in Go's `encoding/csv` writer with the
default comma delimiter: the delimiter, the quote, CR and LF. -/
def needQuoteChar (c : Char) : Bool :=
  c = ',' || c = '"' || c = '\r' || c = '\n'

/-- Go's `encoding/csv` `fieldNeedsQuotes` with default settings: the empty
field is unquoted; the literal backslash-dot field is quoted (Postgres
convention); fields containing the delimiter, a quote, CR or LF are quoted;
otherwise a field is quoted exactly when its first rune is a space. -/
def fieldNeedsQuotes (field : String) : Bool :=
  match field.data with
  | [] => false
  | c :: rest =>
    if field = "\\." then true
    else if (c :: rest).any needQuoteChar then true
    else isGoSpace c

/-- Body of a quoted CSV field with default settings (`UseCRLF = false`):
embedded quotes are doubled, every other character (including CR and LF) is
copied unchanged. -/
def escapeCsvQuoted : List Char → List Char
  | [] => []
  | c :: rest =>
    if c = '"' then '"' :: '"' :: escapeCsvQuoted rest
    else c :: escapeCsvQuoted rest

/-- One CSV field as written by Go's `encoding/csv` writer. -/
def csvField (field : String) : String :=
  if fieldNeedsQuotes field then
    String.mk ('"' :: escapeCsvQuoted field.data ++ ['"'])
  else field

/-- One CSV record as written by Go's `encoding/csv` writer with default
settings: fields joined by commas, terminated by a single newline. -/
def csvWriteLine (fields : List String) : String :=
  joinWith "," (fields.map csvField) ++ "\n"

/-- Embedding of the header-line closure built by
`MapToStrings.ToMapToHeaderLine` (src/json2schema.go lines 146-169) as
instantiated in the command (with `MapToHeaderStrsSorted` as the key
derivation): derive the sorted keys and write them as one CSV record.
Writing into a `bytes.Buffer` cannot fail, so the only error paths are the
key derivation's (none). -/
def mapToHeaderLine (j : JsonMapObject) : Except J2SErr String :=
  .ok (csvWriteLine (MapToHeaderStrsSorted j))

/-- Embedding of the row closure built by `MapToStrings.ToMapToRow1st`
(src/json2schema.go lines 118-139) as instantiated in the command (with
`MapToValueStrsSorted` as the value derivation): derive the stringified
values and write them as one CSV record. -/
def mapToRow1st (j : JsonMapObject) : Except J2SErr String :=
  match MapToValueStrsSorted j with
  | .error e => .error e
  | .ok vals => .ok (csvWriteLine vals)

/-- The two-line CSV fragment (type `CsvForSchema` in the source). -/
structure CsvForSchema where
  headerLine : String
  row1st : String
deriving Repr, DecidableEq

/-- Embedding of `MapToCsv.ToJsonToCsvRaw` (src/json2schema.go lines 44-64)
after JSON decoding: build the header line and the first row; the Go code
joins the two error values with `errors.Join` and the caller aborts whenever
the join is non-nil, which is equivalent to propagating the first error. -/
def mapToCsv (j : JsonMapObject) : Except J2SErr CsvForSchema :=
  match mapToHeaderLine j, mapToRow1st j with
  | .ok h, .ok r => .ok ⟨h, r⟩
  | .error e, _ => .error e
  | .ok _, .error e => .error e

/-- Whether a decoded JSON value is a primitive leaf (string, number or
boolean). -/
def leafPrim : Js → Bool
  | .str _ => true
  | .num _ => true
  | .bool _ => true
  | _ => false

/-- The pipeline of `run` (command source, lines 217-267) up to schema
inference: produce the CSV fragment, concatenate header and first row into
one buffer, and hand the bytes to the schema inferencer.  The inferencer
(the external arrow CSV reader) is abstracted as a function of the CSV
bytes, which is what the Go code passes it. -/
def runPipeline {σ : Type} (infer : String → Except J2SErr σ)
    (j : JsonMapObject) : Except J2SErr σ :=
  match mapToCsv j with
  | .error e => .error e
  | .ok c => infer (c.headerLine ++ c.row1st)

/-- The concrete decoded object for the JSON text with entries b ↦ 1.5 and
a ↦ true, with entries listed in textual order (any other iteration order
is covered by the determinism results). -/
def objBA : JsonMapObject :=
  ⟨[("b", Js.num (qr 3 2 (by decide) (by decide))), ("a", Js.bool true)],
    by decide⟩

/-- The same object as `objBA` with the opposite entry order. -/
def objAB : JsonMapObject :=
  ⟨[("a", Js.bool true), ("b", Js.num (qr 3 2 (by decide) (by decide)))],
    by decide⟩

/-- The primitive arrow data types the command distinguishes: float64,
utf8 string and boolean get short names in the pretty output; every other
data type is carried with its own type name (the string returned by the
arrow library's `Name()` method). -/
inductive ArrowDataType where
  | float64
  | utf8
  | boolean
  | other (typeName : String)
deriving Repr, DecidableEq

/-- Embedding of `typeFromString` (command source, lines 167-178): map a
type token to an arrow data type; `string` (and every unrecognized token)
maps to the arrow string type, `float64` to the 64-bit float type, `bool`
to the boolean type. -/
def typeFromString (s : String) : ArrowDataType :=
  if s = "string" then .utf8
  else if s = "float64" then .float64
  else if s = "bool" then .boolean
  else .utf8

/-- One field of an inferred arrow schema: name, data type, nullability. -/
structure ArrowField where
  name : String
  type : ArrowDataType
  nullable : Bool
deriving Repr, DecidableEq

/-- An inferred arrow schema: its ordered field list. -/
abbrev ArrowSchema := List ArrowField

/-- Embedding of `ToSchema` (src/json2schema.go, lines 182-194).  The
external inferring CSV reader is abstracted by the sequence of record
batches it produces, each represented by its schema: the Go loop returns
the schema of the first batch and, if the reader produces no batch, the
distinct `ErrNoCsvRecordBatchGot` error. -/
def ToSchema (batches : List ArrowSchema) : Except J2SErr ArrowSchema :=
  match batches with
  | [] => .error .noCsvRecordBatchGot
  | b :: _ => .ok b

/-- One field of the pretty JSON output (struct `SerializableField`). -/
structure SerializableField where
  name : String
  type : String
  nullable : Bool
deriving Repr, DecidableEq

/-- The pretty JSON output document (struct `SerializableSchema`). -/
structure SerializableSchema where
  fields : List SerializableField
deriving Repr, DecidableEq

/-- Embedding of `toSerializableSchema` (command source, lines 180-215):
one output field per schema field, in schema order, keeping name and
nullability and rendering the type as `float64`, `utf8` or `bool` for the
three recognized arrow types and as the type's own name otherwise. -/
def toSerializableSchema (schema : ArrowSchema) : SerializableSchema :=
  ⟨schema.map (fun field =>
    match field.type with
    | .float64 => ⟨field.name, "float64", field.nullable⟩
    | .utf8 => ⟨field.name, "utf8", field.nullable⟩
    | .boolean => ⟨field.name, "bool", field.nullable⟩
    | .other tn => ⟨field.name, tn, field.nullable⟩)⟩

/-- Errors of the command's flag parsing: a failure of the flag package
itself, or a malformed name:type override token. -/
inductive CliErr where
  | flagParseFailed
  | invalidTypeMapping (token : String)
deriving Repr, DecidableEq

/-- Go's `strings.Split` with a one-character separator, on strings. -/
def goSplit (s : String) (sep : Char) : List String :=
  (splitOnChar sep s.data).map String.mk

/-- The loop over `-types` tokens in `parseFlags` (command source, lines
120-129): split each token on a colon; a token that does not split into
exactly two parts aborts with the invalid-type-mapping error naming the
token; otherwise the pair (name, mapped type) is recorded.  The Go code
stores the pairs in a map, so for duplicate names the later pair wins;
the model keeps the pairs in order, which preserves that information. -/
def parseTypePairs : List String → Except CliErr (List (String × ArrowDataType))
  | [] => .ok []
  | pair :: rest =>
    match goSplit pair ':' with
    | [k, v] =>
      match parseTypePairs rest with
      | .error e => .error e
      | .ok m => .ok ((k, typeFromString v) :: m)
    | _ => .error (.invalidTypeMapping pair)

/-- The raw flag values as the flag package delivers them to `parseFlags`
(command source, lines 93-132).  `flagParseOk` abstracts whether
`flagSet.Parse` accepts the raw argument vector (the flag package is
external). -/
structure FlagArgs where
  flagParseOk : Bool
  pretty : Bool
  includeArg : String
  typesArg : String
  inputFile : String
  outputFile : String
deriving Repr, DecidableEq

/-- The parsed flag results returned by `parseFlags`. -/
structure ParsedFlags where
  pretty : Bool
  includeColumns : List String
  columnTypes : List (String × ArrowDataType)
  inputFile : String
  outputFile : String
deriving Repr, DecidableEq

/-- Embedding of `parseFlags` (command source, lines 93-132): fail if the
flag package rejects the arguments; split the include list on commas when
non-empty; when the `-types` value is non-empty, split it on commas and
parse each token as a name:type pair, failing fast on the first malformed
token. -/
def parseFlags (a : FlagArgs) : Except CliErr ParsedFlags :=
  if a.flagParseOk = false then .error .flagParseFailed
  else
    let includeColumns := if a.includeArg = "" then [] else goSplit a.includeArg ','
    if a.typesArg = "" then
      .ok ⟨a.pretty, includeColumns, [], a.inputFile, a.outputFile⟩
    else
      match parseTypePairs (goSplit a.typesArg ',') with
      | .error e => .error e
      | .ok ct => .ok ⟨a.pretty, includeColumns, ct, a.inputFile, a.outputFile⟩

/-- The outcomes of the external effects of one `cli.run` invocation:
whether opening the input file, creating the output file, running the
conversion pipeline, and closing each handle would succeed. -/
structure World where
  inputOpenOk : Bool
  outputOpenOk : Bool
  pipelineOk : Bool
  inputCloseOk : Bool
  outputCloseOk : Bool
deriving Repr, DecidableEq

/-- Observable trace of one `cli.run` invocation: the value returned by
`run` (which `main` passes to `os.Exit`, so it is the process exit code),
the final value of the `ExitCode` struct field after the deferred closes
ran, and which effects happened. -/
structure RunTrace where
  returned : Nat
  exitCodeField : Nat
  inputFileOpened : Bool
  outputFileCreated : Bool
  pipelineRan : Bool
deriving Repr, DecidableEq

/-- Embedding of `cli.run` (command source, lines 49-91) together with
`main`'s `os.Exit(cliApp.run())`.  Control flow: parse flags (return 1 on
error, before any file is touched); open the input file if a path was
given (return 1 on failure); defer closing the input; create the output
file if a path was given (return 1 on failure, after which the deferred
input close runs); defer closing the output; run the pipeline (return 1 on
failure).  On the success path the Go statement `return cliApp.ExitCode`
reads the field before the deferred closes execute, because `run` has an
unnamed result: the deferred handlers' assignment `cliApp.ExitCode = 1` on
a close failure mutates only the struct field, never the already-captured
return value.  The model therefore returns 0 there while recording the
mutated field separately. -/
def cliRun (a : FlagArgs) (w : World) : RunTrace :=
  match parseFlags a with
  | .error _ => ⟨1, 0, false, false, false⟩
  | .ok p =>
    if p.inputFile ≠ "" ∧ w.inputOpenOk = false then ⟨1, 0, false, false, false⟩
    else
      let inOpened : Bool := decide (p.inputFile ≠ "")
      if p.outputFile ≠ "" ∧ w.outputOpenOk = false then
        ⟨1, if w.inputCloseOk then 0 else 1, inOpened, false, false⟩
      else
        let outOpened : Bool := decide (p.outputFile ≠ "")
        let fieldAfterDefers : Nat := if w.outputCloseOk ∧ w.inputCloseOk then 0 else 1
        if w.pipelineOk then ⟨0, fieldAfterDefers, inOpened, outOpened, true⟩
        else ⟨1, fieldAfterDefers, inOpened, outOpened, true⟩

/-- Decimal digit character test. -/
def isDigitCh (c : Char) : Bool := 48 ≤ c.toNat && c.toNat ≤ 57

/-- Structural check that a string is a fixed-point decimal with exactly
six digits after the decimal point and no exponent: exactly one dot, six
digit characters after it, a nonempty integer part, and no characters
besides digits, a minus sign and the dot. -/
def isFixed6 (s : String) : Bool :=
  match splitOnChar '.' s.data with
  | [ip, fp] =>
    !ip.isEmpty && (fp.length == 6) && fp.all isDigitCh &&
      s.data.all (fun c => isDigitCh c || c = '-' || c = '.')
  | _ => false

/-- JSON value shapes handled by the default branch of `val2str` (neither
string nor float64 nor boolean: null, arrays, objects). -/
def isOtherShape : Js → Bool
  | .str _ => false
  | .num _ => false
  | .bool _ => false
  | _ => true

/-- Scanner mode of Go's `encoding/json` indenter: outside any string
literal, inside a string literal, or right after a backslash inside a
string literal. -/
inductive JMode where
  | normal
  | inStr
  | esc
deriving Repr, DecidableEq

/-- State of Go's `encoding/json` indenter: current nesting depth, whether
a newline plus indentation is pending (set right after `[` or the opening
brace), and the scanner mode. -/
structure JState where
  depth : Nat
  needIndent : Bool
  mode : JMode
deriving Repr, DecidableEq

/-- A newline followed by the indentation for nesting depth `d`, with the
prefix "" and the two-space indent string Go's `MarshalIndent` is called
with in `run` (command source, line 257). -/
def newlineIndent (d : Nat) : List Char :=
  '\n' :: List.replicate (2 * d) ' '

/-- One step of Go's `encoding/json` `appendIndent` loop on one input
character: characters inside string literals pass through unchanged; `[`
and the opening brace mark an indent as pending; a pending indent is
emitted (and the depth grows) before the next character unless that
character closes the container immediately; commas break the line; colons
get a trailing space; closing brackets un-indent. -/
def indentStep (st : JState) (c : Char) : JState × List Char :=
  match st.mode with
  | .inStr =>
    if c = '\\' then (⟨st.depth, st.needIndent, .esc⟩, [c])
    else if c = '"' then (⟨st.depth, st.needIndent, .normal⟩, [c])
    else (st, [c])
  | .esc => (⟨st.depth, st.needIndent, .inStr⟩, [c])
  | .normal =>
    let d := if st.needIndent ∧ ¬(c = rbraceC ∨ c = ']') then st.depth + 1 else st.depth
    let pre : List Char :=
      if st.needIndent ∧ ¬(c = rbraceC ∨ c = ']') then newlineIndent (st.depth + 1) else []
    if c = lbraceC ∨ c = '[' then (⟨d, true, .normal⟩, pre ++ [c])
    else if c = ',' then (⟨d, false, .normal⟩, pre ++ c :: newlineIndent d)
    else if c = ':' then (⟨d, false, .normal⟩, pre ++ [c, ' '])
    else if c = rbraceC ∨ c = ']' then
      if st.needIndent then (⟨st.depth, false, .normal⟩, [c])
      else (⟨st.depth - 1, false, .normal⟩, newlineIndent (st.depth - 1) ++ [c])
    else if c = '"' then (⟨d, false, .inStr⟩, pre ++ [c])
    else (⟨d, false, .normal⟩, pre ++ [c])

/-- Run the indenter over a character list, collecting the output. -/
def runIndent : JState → List Char → JState × List Char
  | st, [] => (st, [])
  | st, c :: cs =>
    let sc := indentStep st c
    let rest := runIndent sc.1 cs
    (rest.1, sc.2 ++ rest.2)

/-- Go's `json.Indent` with prefix "" and indent "  ", as used by
`json.MarshalIndent(v, "", "  ")` (which marshals compactly and then
indents). -/
def jsonIndent (s : String) : String :=
  String.mk (runIndent ⟨0, false, .normal⟩ s.data).2

/-- Everything of the compact JSON encoding of one `SerializableField`
after its opening brace: the three members with their json-tag names, in
struct order, followed by the closing brace. -/
def marshalFieldTail (f : SerializableField) : String :=
  "\"name\":" ++ encodeJsonString f.name ++
    ",\"type\":" ++ encodeJsonString f.type ++
    ",\"nullable\":" ++ formatBool f.nullable ++ "\x7d"

/-- Compact JSON encoding of one `SerializableField` as Go's `json.Marshal`
produces it from the struct's json tags. -/
def marshalField (f : SerializableField) : String :=
  "\x7b" ++ marshalFieldTail f

/-- Compact JSON encoding of a `SerializableSchema`: one "fields" member
holding the array of field objects (Go marshals a non-nil empty slice as
an empty array). -/
def marshalSchemaCompact (s : SerializableSchema) : String :=
  "\x7b\"fields\":" ++ ("[" ++ joinWith "," (s.fields.map marshalField) ++ "]") ++ "\x7d"

/-- Model of `json.MarshalIndent(s, "", "  ")` on the serializable schema:
Go marshals compactly and then indents. -/
def marshalSchemaIndent (s : SerializableSchema) : String :=
  jsonIndent (marshalSchemaCompact s)

/-- The type-name mapping the spec asserts for the pretty serializer. -/
def typeRender : ArrowDataType → String
  | .float64 => "float64"
  | .utf8 => "utf8"
  | .boolean => "bool"
  | .other tn => tn

/-- Modelled from the spec (section 4.5): the expected pretty rendering of
one field object, without its four-space indentation prefix: members on
their own lines indented six spaces (three levels of two spaces), a space
after each colon, the closing brace indented four spaces. -/
def prettyFieldBodyTail (f : SerializableField) : String :=
  "\n      \"name\": " ++ encodeJsonString f.name ++
    ",\n      \"type\": " ++ encodeJsonString f.type ++
    ",\n      \"nullable\": " ++ formatBool f.nullable ++ "\n    \x7d"

/-- The expected pretty rendering of one field object (brace plus body). -/
def prettyFieldBody (f : SerializableField) : String :=
  "\x7b" ++ prettyFieldBodyTail f

/-- The expected pretty rendering of one element of the "fields" array:
indented four spaces (two levels of two spaces). -/
def prettyFieldSpec (f : SerializableField) : String :=
  "    " ++ prettyFieldBody f

/-- Modelled from the spec (section 4.5): the expected whole pretty
document, two spaces of indentation per nesting level: a single "fields"
array with one element per field, separated by comma plus newline. -/
def prettySchemaSpec (s : SerializableSchema) : String :=
  match s.fields with
  | [] => "\x7b\n  \"fields\": []\n\x7d"
  | f :: fs =>
    "\x7b\n  \"fields\": [\n" ++ joinWith ",\n" ((f :: fs).map prettyFieldSpec) ++
      "\n  ]\n\x7d"

theorem charListLe_total : ∀ a b : List Char, charListLe a b = true ∨ charListLe b a = true
  | [], _ => Or.inl rfl
  | _ :: _, [] => Or.inr rfl
  | a :: as, b :: bs => by
    by_cases hab : a < b
    · left
      simp [charListLe, hab]
    · by_cases hba : b < a
      · right
        simp [charListLe, hba]
      · have heq : a = b := le_antisymm (not_lt.mp hba) (not_lt.mp hab)
        subst heq
        simpa [charListLe, lt_irrefl] using charListLe_total as bs

theorem charListLe_trans :
    ∀ a b c : List Char,
      charListLe a b = true → charListLe b c = true → charListLe a c = true
  | [], _, _, _, _ => rfl
  | _ :: _, [], _, h1, _ => by simp [charListLe] at h1
  | _ :: _, _ :: _, [], _, h2 => by simp [charListLe] at h2
  | x :: as, y :: bs, z :: cs, h1, h2 => by
    by_cases hxy : x < y
    · by_cases hyz : y < z
      · simp [charListLe, lt_trans hxy hyz]
      · by_cases hzy : z < y
        · simp [charListLe, asymm hzy, hzy] at h2
        · have heq : y = z := le_antisymm (not_lt.mp hzy) (not_lt.mp hyz)
          subst heq
          simp [charListLe, hxy]
    · by_cases hyx : y < x
      · simp [charListLe, asymm hyx, hyx] at h1
      · have heq : x = y := le_antisymm (not_lt.mp hyx) (not_lt.mp hxy)
        subst heq
        by_cases hyz : x < z
        · simp [charListLe, hyz]
        · by_cases hzy : z < x
          · simp [charListLe, asymm hzy, hzy] at h2
          · have heq2 : x = z := le_antisymm (not_lt.mp hzy) (not_lt.mp hyz)
            subst heq2
            simp only [charListLe, lt_irrefl, if_false] at h1 h2 ⊢
            exact charListLe_trans as bs cs h1 h2

theorem charListLe_antisymm :
    ∀ a b : List Char, charListLe a b = true → charListLe b a = true → a = b
  | [], [], _, _ => rfl
  | [], _ :: _, _, h2 => by simp [charListLe] at h2
  | _ :: _, [], h1, _ => by simp [charListLe] at h1
  | x :: as, y :: bs, h1, h2 => by
    by_cases hxy : x < y
    · simp [charListLe, asymm hxy, hxy] at h2
    · by_cases hyx : y < x
      · simp [charListLe, asymm hyx, hyx] at h1
      · have heq : x = y := le_antisymm (not_lt.mp hyx) (not_lt.mp hxy)
        subst heq
        simp only [charListLe, lt_irrefl, if_false] at h1 h2
        rw [charListLe_antisymm as bs h1 h2]

theorem strLe_isTotal : IsTotal String StrLe :=
  ⟨fun a b => charListLe_total a.data b.data⟩

theorem strLe_isTrans : IsTrans String StrLe :=
  ⟨fun a b c h1 h2 => charListLe_trans a.data b.data c.data h1 h2⟩

theorem strLe_isAntisymm : IsAntisymm String StrLe := by
  refine ⟨fun a b h1 h2 => ?_⟩
  cases a with
  | mk da => cases b with
    | mk db => exact congrArg String.mk (charListLe_antisymm da db h1 h2)

/-- The sorted key list is sorted with respect to the (non-strict) string
order. -/
theorem headerKeys_sorted_le (j : JsonMapObject) :
    (MapToHeaderStrsSorted j).Sorted StrLe := by
  haveI := strLe_isTotal
  haveI := strLe_isTrans
  exact List.sorted_insertionSort StrLe (j.entries.map Prod.fst)

/-- The sorted key list is a permutation of the map's key list. -/
theorem headerKeys_perm (j : JsonMapObject) :
    (MapToHeaderStrsSorted j).Perm (j.entries.map Prod.fst) :=
  List.perm_insertionSort StrLe (j.entries.map Prod.fst)

/-- The sorted key list has no duplicates (object keys are unique). -/
theorem headerKeys_nodup (j : JsonMapObject) :
    (MapToHeaderStrsSorted j).Nodup :=
  ((headerKeys_perm j).nodup_iff).mpr j.nodupKeys

/-- The sorted key list is strictly ascending. -/
theorem headerKeys_sorted_lt (j : JsonMapObject) :
    (MapToHeaderStrsSorted j).Sorted StrLt :=
  List.Pairwise.and (headerKeys_sorted_le j) (headerKeys_nodup j)

/-- A key that occurs in the map's key list is found by the map lookup. -/
theorem mapLookup_isSome_of_mem {j : JsonMapObject} {k : String}
    (h : k ∈ j.entries.map Prod.fst) : (mapLookup j k).isSome = true := by
  rcases List.mem_map.mp h with ⟨p, hp, hpk⟩
  have hfind : (j.entries.find? (fun q => q.1 == k)).isSome = true := by
    rw [List.find?_isSome]
    exact ⟨p, hp, by simp [hpk]⟩
  simpa [mapLookup] using hfind

/-- When every key is present, the value loop succeeds and returns exactly
the stringified looked-up value of each key, in key order. -/
theorem valStrsForKeys_ok (j : JsonMapObject) :
    ∀ ks : List String, (∀ k ∈ ks, (mapLookup j k).isSome = true) →
      valStrsForKeys j ks =
        .ok (ks.map (fun k => val2str ((mapLookup j k).getD Js.null)))
  | [], _ => rfl
  | k :: ks, h => by
    have hk := h k (by simp)
    rcases Option.isSome_iff_exists.mp hk with ⟨v, hv⟩
    have ih := valStrsForKeys_ok j ks (fun x hx => h x (by simp [hx]))
    simp [valStrsForKeys, hv, ih]

/-- Every sorted header key is a key of the map. -/
theorem headerKeys_mem (j : JsonMapObject) {k : String}
    (h : k ∈ MapToHeaderStrsSorted j) : k ∈ j.entries.map Prod.fst :=
  (headerKeys_perm j).subset h

/-- `MapToValueStrsSorted` always succeeds, returning the stringified value
of each sorted key in order. -/
theorem MapToValueStrsSorted_eq_ok (j : JsonMapObject) :
    MapToValueStrsSorted j =
      .ok ((MapToHeaderStrsSorted j).map
        (fun k => val2str ((mapLookup j k).getD Js.null))) :=
  valStrsForKeys_ok j _ (fun _ hk => mapLookup_isSome_of_mem (headerKeys_mem j hk))

/-- With duplicate-free keys, `find?` on the key of a member returns that
very member. -/
theorem find?_eq_of_mem_nodup :
    ∀ {l : List (String × Js)}, (l.map Prod.fst).Nodup →
      ∀ {p : String × Js}, p ∈ l → l.find? (fun q => q.1 == p.1) = some p := by
  intro l
  induction l with
  | nil => intro _ p hp; cases hp
  | cons x xs ih =>
    intro hn p hp
    rw [List.map_cons] at hn
    have hnd := List.nodup_cons.mp hn
    rcases List.mem_cons.mp hp with rfl | hp'
    · simp [List.find?_cons_of_pos]
    · have hx : ¬ x.1 = p.1 := by
        intro he
        exact hnd.1 (he ▸ List.mem_map.mpr ⟨p, hp', rfl⟩)
      rw [List.find?_cons_of_neg _ (by simpa using hx)]
      exact ih hnd.2 hp'

/-- Map lookup is invariant under permuting the (duplicate-free) entries:
only the map's contents, not its iteration order, determine lookups. -/
theorem mapLookup_perm {j1 j2 : JsonMapObject} (h : j1.entries.Perm j2.entries)
    (k : String) : mapLookup j1 k = mapLookup j2 k := by
  cases hf : j1.entries.find? (fun q => q.1 == k) with
  | none =>
    have h1 := List.find?_eq_none.mp hf
    have h2 : j2.entries.find? (fun q => q.1 == k) = none :=
      List.find?_eq_none.mpr (fun x hx => h1 x (h.symm.subset hx))
    simp [mapLookup, hf, h2]
  | some p =>
    have hp : p ∈ j1.entries := List.mem_of_find?_eq_some hf
    have hpk : p.1 = k := by simpa using List.find?_some hf
    have h2 : j2.entries.find? (fun q => q.1 == k) = some p := by
      have h3 := find?_eq_of_mem_nodup j2.nodupKeys (h.subset hp)
      rw [hpk] at h3
      exact h3
    simp [mapLookup, hf, h2]

/-- The sorted key sequence is invariant under permuting the entries: both
sides are sorted and are permutations of the same key multiset. -/
theorem MapToHeaderStrsSorted_perm_eq {j1 j2 : JsonMapObject}
    (h : j1.entries.Perm j2.entries) :
    MapToHeaderStrsSorted j1 = MapToHeaderStrsSorted j2 := by
  haveI := strLe_isAntisymm
  exact List.eq_of_perm_of_sorted
    ((headerKeys_perm j1).trans ((h.map Prod.fst).trans (headerKeys_perm j2).symm))
    (headerKeys_sorted_le j1) (headerKeys_sorted_le j2)

/-- The stringified value sequence is invariant under permuting the
entries. -/
theorem MapToValueStrsSorted_perm_eq {j1 j2 : JsonMapObject}
    (h : j1.entries.Perm j2.entries) :
    MapToValueStrsSorted j1 = MapToValueStrsSorted j2 := by
  rw [MapToValueStrsSorted_eq_ok j1, MapToValueStrsSorted_eq_ok j2,
    MapToHeaderStrsSorted_perm_eq h]
  exact congrArg Except.ok
    (List.map_congr_left (fun k _ => by rw [mapLookup_perm h k]))

/-- The whole CSV fragment is invariant under permuting the entries. -/
theorem mapToCsv_perm_eq {j1 j2 : JsonMapObject}
    (h : j1.entries.Perm j2.entries) : mapToCsv j1 = mapToCsv j2 := by
  unfold mapToCsv mapToHeaderLine mapToRow1st
  rw [MapToHeaderStrsSorted_perm_eq h, MapToValueStrsSorted_perm_eq h]

/-- C1: for every JSON object with only string/number/boolean leaf values,
the sorted key sequence is strictly ascending in the lexicographic string
order, and the value sequence succeeds with one entry per sorted key, the
entry at each position being the stringified value of the key at the same
position. -/
theorem claim_C1_flatten_sorted_aligned (j : JsonMapObject)
    (_hleaf : ∀ p ∈ j.entries, leafPrim p.2 = true) :
    (MapToHeaderStrsSorted j).Sorted StrLt ∧
      ∃ vals, MapToValueStrsSorted j = .ok vals ∧
        vals.length = (MapToHeaderStrsSorted j).length ∧
        vals = (MapToHeaderStrsSorted j).map
          (fun k => val2str ((mapLookup j k).getD Js.null)) := by
  refine ⟨headerKeys_sorted_lt j, ?_⟩
  exact ⟨_, MapToValueStrsSorted_eq_ok j, by simp, rfl⟩

/-- C1 witness: the property evaluated on the object with entries
b ↦ 1.5 and a ↦ true. -/
theorem claim_C1_witness :
    (MapToHeaderStrsSorted objBA).Sorted StrLt ∧
      ∃ vals, MapToValueStrsSorted objBA = .ok vals ∧
        vals.length = (MapToHeaderStrsSorted objBA).length ∧
        vals = (MapToHeaderStrsSorted objBA).map
          (fun k => val2str ((mapLookup objBA k).getD Js.null)) :=
  claim_C1_flatten_sorted_aligned objBA (by decide)

/-- C8: every key of the sorted key list is found in the map, so the
defensive key-not-found branch of `MapToValueStrsSorted` is unreachable:
the function never returns the key-not-found error. -/
theorem claim_C8_keyNotFound_unreachable (j : JsonMapObject) :
    (∀ k ∈ MapToHeaderStrsSorted j, (mapLookup j k).isSome = true) ∧
      ∀ k, MapToValueStrsSorted j ≠ .error (.keyNotFound k) := by
  refine ⟨fun k hk => mapLookup_isSome_of_mem (headerKeys_mem j hk), fun k => ?_⟩
  rw [MapToValueStrsSorted_eq_ok j]
  intro hcon
  cases hcon

/-- C8 witness: the property evaluated on a concrete object and key. -/
theorem claim_C8_witness :
    (mapLookup objBA "a").isSome = true ∧
      MapToValueStrsSorted objBA ≠ .error (.keyNotFound "a") :=
  ⟨(claim_C8_keyNotFound_unreachable objBA).1 "a" (by decide),
    (claim_C8_keyNotFound_unreachable objBA).2 "a"⟩

/-- C10: the conversion is deterministic in the map contents: permuting the
entry order (the unspecified Go map iteration order) changes neither the
sorted keys, nor the value sequence, nor the CSV fragment, nor the result
of any schema inference performed on the CSV bytes — so two runs on the
same decoded object produce identical output and outcome. -/
theorem claim_C10_deterministic (j1 j2 : JsonMapObject)
    (h : j1.entries.Perm j2.entries) :
    MapToHeaderStrsSorted j1 = MapToHeaderStrsSorted j2 ∧
      MapToValueStrsSorted j1 = MapToValueStrsSorted j2 ∧
      mapToCsv j1 = mapToCsv j2 ∧
      ∀ {σ : Type} (infer : String → Except J2SErr σ),
        runPipeline infer j1 = runPipeline infer j2 := by
  refine ⟨MapToHeaderStrsSorted_perm_eq h, MapToValueStrsSorted_perm_eq h,
    mapToCsv_perm_eq h, fun infer => ?_⟩
  unfold runPipeline
  rw [mapToCsv_perm_eq h]

/-- C10 witness: the two entry orders of the same concrete object yield the
same CSV fragment. -/
theorem claim_C10_witness : mapToCsv objBA = mapToCsv objAB :=
  (claim_C10_deterministic objBA objAB (List.Perm.swap _ _ [])).2.2.1

/-- C3: for the decoded object of the JSON text with entries b ↦ 1.5 and
a ↦ true, the header line is the bytes of "a,b" followed by a newline, the
first data row is the bytes of "true,1.500000" followed by a newline, and
concatenating the two yields the two-line CSV fragment. -/
theorem claim_C3_concrete_csv :
    mapToHeaderLine objBA = .ok "a,b\n" ∧
      mapToRow1st objBA = .ok "true,1.500000\n" ∧
      mapToCsv objBA = .ok ⟨"a,b\n", "true,1.500000\n"⟩ ∧
      "a,b\n" ++ "true,1.500000\n" = "a,b\ntrue,1.500000\n" := by decide

/-- C6: the token-to-type mapping sends "string" to the arrow string type,
"float64" to the 64-bit float type, "bool" to the boolean type, and every
other token to the arrow string type. -/
theorem claim_C6_typeFromString (s : String)
    (h1 : s ≠ "string") (h2 : s ≠ "float64") (h3 : s ≠ "bool") :
    typeFromString "string" = .utf8 ∧ typeFromString "float64" = .float64 ∧
      typeFromString "bool" = .boolean ∧ typeFromString s = .utf8 := by
  refine ⟨by decide, by decide, by decide, ?_⟩
  simp [typeFromString, h1, h2, h3]

/-- C6 witness: the fallback branch evaluated at the token "int64". -/
theorem claim_C6_witness :
    typeFromString "string" = .utf8 ∧ typeFromString "float64" = .float64 ∧
      typeFromString "bool" = .boolean ∧ typeFromString "int64" = .utf8 :=
  claim_C6_typeFromString "int64" (by decide) (by decide) (by decide)

/-- C9: `ToSchema` returns the schema of the first record batch whenever
the reader produced at least one batch, and returns the distinct
no-csv-record-batch error exactly when the reader produced none. -/
theorem claim_C9_ToSchema (batches : List ArrowSchema) :
    (∀ b rest, batches = b :: rest → ToSchema batches = .ok b) ∧
      (ToSchema batches = .error .noCsvRecordBatchGot ↔ batches = []) := by
  constructor
  · rintro b rest rfl
    rfl
  · cases batches with
    | nil => simp [ToSchema]
    | cons b bs => simp [ToSchema]

/-- C9 witness: both directions evaluated on concrete batch lists. -/
theorem claim_C9_witness :
    ToSchema [[⟨"a", ArrowDataType.boolean, true⟩]] =
        .ok [⟨"a", ArrowDataType.boolean, true⟩] ∧
      ToSchema ([] : List ArrowSchema) = .error .noCsvRecordBatchGot :=
  ⟨(claim_C9_ToSchema _).1 [⟨"a", ArrowDataType.boolean, true⟩] [] rfl,
    (claim_C9_ToSchema []).2.mpr rfl⟩

theorem parseTypePairs_error_of_bad :
    ∀ pairs : List String, (∃ t ∈ pairs, (goSplit t ':').length ≠ 2) →
      ∃ tok, parseTypePairs pairs = .error (.invalidTypeMapping tok) := by
  intro pairs
  induction pairs with
  | nil =>
    intro h
    simp at h
  | cons pair rest ih =>
    intro h
    cases hsplit : goSplit pair ':' with
    | nil => exact ⟨pair, by simp [parseTypePairs, hsplit]⟩
    | cons x xs =>
      cases xs with
      | nil => exact ⟨pair, by simp [parseTypePairs, hsplit]⟩
      | cons y ys =>
        cases ys with
        | nil =>
          have hr : ∃ t ∈ rest, (goSplit t ':').length ≠ 2 := by
            rcases h with ⟨t, ht, hbad⟩
            rcases List.mem_cons.mp ht with rfl | htr
            · rw [hsplit] at hbad
              simp at hbad
            · exact ⟨t, htr, hbad⟩
          rcases ih hr with ⟨tok, htok⟩
          exact ⟨tok, by simp [parseTypePairs, hsplit, htok]⟩
        | cons z zs => exact ⟨pair, by simp [parseTypePairs, hsplit]⟩

/-- C5: when the `-types` value contains a token that does not split into
exactly one colon-separated name:type pair, the run fails during flag
parsing with the invalid-type-mapping error: the returned exit code is 1,
no input file was opened, no output file was created, and the pipeline
never ran (so no partial output exists). -/
theorem claim_C5_bad_types_fail_fast (a : FlagArgs) (w : World)
    (hok : a.flagParseOk = true) (hne : a.typesArg ≠ "")
    (hbad : ∃ t ∈ goSplit a.typesArg ',', (goSplit t ':').length ≠ 2) :
    (∃ tok, parseFlags a = .error (.invalidTypeMapping tok)) ∧
      cliRun a w = ⟨1, 0, false, false, false⟩ := by
  rcases parseTypePairs_error_of_bad (goSplit a.typesArg ',') hbad with ⟨tok, htok⟩
  have hpf : parseFlags a = .error (.invalidTypeMapping tok) := by
    simp [parseFlags, hok, hne, htok]
  exact ⟨⟨tok, hpf⟩, by simp [cliRun, hpf]⟩

/-- C5 witness: the colon-free token "badtoken" evaluated concretely. -/
theorem claim_C5_witness :
    (∃ tok, parseFlags ⟨true, false, "", "badtoken", "", ""⟩ =
        .error (.invalidTypeMapping tok)) ∧
      cliRun ⟨true, false, "", "badtoken", "", ""⟩ ⟨true, true, true, true, true⟩ =
        ⟨1, 0, false, false, false⟩ :=
  claim_C5_bad_types_fail_fast _ _ rfl (by decide) (by decide)

/-- C7 (code behaviour at the claimed failing input): when flag parsing,
both opens and the whole pipeline succeed but closing the output file
fails, `run` returns 0 — the Go `return cliApp.ExitCode` captures the
result value before the deferred close handlers run, and with an unnamed
result their `cliApp.ExitCode = 1` mutates only the struct field (recorded
here as 1) — so the process exits 0, not 1 as the claim states. -/
theorem claim_C7_close_failure_exits_zero :
    cliRun ⟨true, false, "", "", "", "out.txt"⟩ ⟨true, true, true, true, false⟩ =
      ⟨0, 1, false, true, true⟩ := by decide

theorem splitOnChar_of_not_mem {sep : Char} :
    ∀ {l : List Char}, sep ∉ l → splitOnChar sep l = [l]
  | [], _ => rfl
  | c :: rest, h => by
    rw [List.mem_cons, not_or] at h
    have hc : ¬ c = sep := fun he => h.1 he.symm
    simp [splitOnChar, hc, splitOnChar_of_not_mem h.2]

theorem splitOnChar_single_sep {sep : Char} :
    ∀ {a b : List Char}, sep ∉ a → sep ∉ b →
      splitOnChar sep (a ++ sep :: b) = [a, b]
  | [], b, _, hb => by simp [splitOnChar, splitOnChar_of_not_mem hb]
  | c :: as, b, ha, hb => by
    rw [List.mem_cons, not_or] at ha
    have hc : ¬ c = sep := fun he => ha.1 he.symm
    have ih := @splitOnChar_single_sep sep as b ha.2 hb
    simp [splitOnChar, hc, ih]

theorem natDigitsAux_lt_ten :
    ∀ fuel n d, d ∈ natDigitsAux fuel n → d < 10
  | 0, _, _, h => absurd h (by simp [natDigitsAux])
  | fuel + 1, n, d, h => by
    by_cases hn : n < 10
    · simp [natDigitsAux, hn] at h
      omega
    · simp only [natDigitsAux, if_neg hn, List.mem_append,
        List.mem_singleton] at h
      rcases h with h | h
      · exact natDigitsAux_lt_ten fuel (n / 10) d h
      · subst h
        omega

theorem natDigitsAux_ne_nil (fuel n : Nat) : natDigitsAux (fuel + 1) n ≠ [] := by
  by_cases hn : n < 10 <;> simp [natDigitsAux, hn]

theorem natDigitsAux_length_le :
    ∀ fuel k n, n < 10 ^ k → 1 ≤ k → (natDigitsAux fuel n).length ≤ k
  | 0, k, n, _, _ => by simp [natDigitsAux]
  | fuel + 1, k, n, hn, hk => by
    by_cases h : n < 10
    · simpa [natDigitsAux, h] using hk
    · have hk2 : 2 ≤ k := by
        by_contra hcon
        have hk1 : k = 1 := by omega
        subst hk1
        simp only [pow_one] at hn
        omega
      have hdiv : n / 10 < 10 ^ (k - 1) := by
        have hpow : 10 ^ (k - 1) * 10 = 10 ^ k := by
          rw [← pow_succ]
          congr 1
          omega
        rw [Nat.div_lt_iff_lt_mul (by omega), hpow]
        exact hn
      have ih := natDigitsAux_length_le fuel (k - 1) (n / 10) hdiv (by omega)
      simp only [natDigitsAux, if_neg h, List.length_append,
        List.length_singleton]
      omega

theorem natDecimal_all_digits (n : Nat) :
    ∀ c ∈ natDecimal n, isDigitCh c = true := by
  intro c hc
  rcases List.mem_map.mp hc with ⟨d, hd, rfl⟩
  have hlt := natDigitsAux_lt_ten _ _ d hd
  interval_cases d <;> decide

theorem natDecimal_ne_nil (n : Nat) : natDecimal n ≠ [] := by
  unfold natDecimal natDigits
  simp [natDigitsAux_ne_nil]

theorem natDecimal_length_le_six {n : Nat} (h : n < 1000000) :
    (natDecimal n).length ≤ 6 := by
  unfold natDecimal natDigits
  rw [List.length_map]
  exact natDigitsAux_length_le _ 6 n (by omega) (by omega)

theorem zeroPad_six_length {ds : List Char} (h : ds.length ≤ 6) :
    (zeroPad 6 ds).length = 6 := by
  simp only [zeroPad, List.length_append, List.length_replicate]
  omega

theorem zeroPad_six_all_digits {ds : List Char}
    (h : ∀ c ∈ ds, isDigitCh c = true) :
    ∀ c ∈ zeroPad 6 ds, isDigitCh c = true := by
  intro c hc
  rcases List.mem_append.mp hc with hrep | hds
  · rw [List.eq_of_mem_replicate hrep]
    decide
  · exact h c hds

theorem not_dot_of_digit {c : Char} (h : isDigitCh c = true) : ¬ c = '.' := by
  intro he
  subst he
  exact absurd h (by decide)

theorem isFixed6_parts {sign ip fp : List Char}
    (hsign : sign = [] ∨ sign = ['-'])
    (hip : ip ≠ []) (hipd : ∀ c ∈ ip, isDigitCh c = true)
    (hfplen : fp.length = 6) (hfpd : ∀ c ∈ fp, isDigitCh c = true) :
    isFixed6 (String.mk (sign ++ ip ++ '.' :: fp)) = true := by
  have hdotip : '.' ∉ sign ++ ip := by
    intro hmem
    rcases List.mem_append.mp hmem with hs | hi
    · rcases hsign with rfl | rfl
      · cases hs
      · simp at hs
    · exact absurd (hipd _ hi) (by decide)
  have hdotfp : '.' ∉ fp := fun hf => not_dot_of_digit (hfpd _ hf) rfl
  have hsplit : splitOnChar '.' (sign ++ ip ++ '.' :: fp) = [sign ++ ip, fp] :=
    splitOnChar_single_sep hdotip hdotfp
  have hne : sign ++ ip ≠ [] := by
    rcases hsign with rfl | rfl
    · simpa using hip
    · simp
  show isFixed6 ⟨sign ++ ip ++ '.' :: fp⟩ = true
  unfold isFixed6
  rw [hsplit]
  simp only [Bool.and_eq_true]
  refine ⟨⟨⟨?_, ?_⟩, ?_⟩, ?_⟩
  · simpa using hne
  · simpa using hfplen
  · rw [List.all_eq_true]
    exact fun c hc => hfpd c hc
  · rw [List.all_eq_true]
    intro c hc
    simp only [Bool.or_eq_true, decide_eq_true_eq]
    rcases List.mem_append.mp hc with hsi | hdotrest
    · rcases List.mem_append.mp hsi with hs | hi
      · rcases hsign with rfl | rfl
        · cases hs
        · simp only [List.mem_singleton] at hs
          subst hs
          exact Or.inl (Or.inr rfl)
      · exact Or.inl (Or.inl (hipd _ hi))
    · rcases List.mem_cons.mp hdotrest with rfl | hf
      · exact Or.inr rfl
      · exact Or.inl (Or.inl (hfpd _ hf))

theorem isFixed6_formatFloat6 (q : ℚ) : isFixed6 (formatFloat6 q) = true := by
  show isFixed6 (String.mk
    ((if roundHalfEven (q.num * 1000000) (q.den : ℤ) < 0 then ['-'] else []) ++
      natDecimal ((roundHalfEven (q.num * 1000000) (q.den : ℤ)).natAbs / 1000000) ++
      '.' :: zeroPad 6
        (natDecimal
          ((roundHalfEven (q.num * 1000000) (q.den : ℤ)).natAbs % 1000000)))) = true
  have hmod : (roundHalfEven (q.num * 1000000) (q.den : ℤ)).natAbs % 1000000 <
      1000000 := Nat.mod_lt _ (by omega)
  apply isFixed6_parts
  · by_cases hm : roundHalfEven (q.num * 1000000) (q.den : ℤ) < 0
    · exact Or.inr (by rw [if_pos hm])
    · exact Or.inl (by rw [if_neg hm])
  · exact natDecimal_ne_nil _
  · exact natDecimal_all_digits _
  · exact zeroPad_six_length (natDecimal_length_le_six hmod)
  · exact zeroPad_six_all_digits (natDecimal_all_digits _)

theorem trimSpaceChars_wrap {c d : Char} {mid : List Char}
    (hc : isGoSpace c = false) (hd : isGoSpace d = false) :
    trimSpaceChars ((c :: (mid ++ [d])) ++ ['\n']) = c :: (mid ++ [d]) := by
  unfold trimSpaceChars
  have h1 : List.dropWhile isGoSpace ((c :: (mid ++ [d])) ++ ['\n']) =
      c :: (mid ++ [d] ++ ['\n']) := by
    rw [List.cons_append, List.dropWhile_cons_of_neg (by simp [hc])]
  rw [h1]
  have h2 : (c :: (mid ++ [d] ++ ['\n'])).reverse =
      '\n' :: d :: (mid.reverse ++ [c]) := by
    simp [List.reverse_cons, List.reverse_append]
  rw [h2]
  have h3 : List.dropWhile isGoSpace ('\n' :: d :: (mid.reverse ++ [c])) =
      d :: (mid.reverse ++ [c]) := by
    rw [List.dropWhile_cons_of_pos (by decide),
      List.dropWhile_cons_of_neg (by simp [hd])]
  rw [h3]
  simp

/-- Trimming the encoder's trailing newline from a value delimited by
non-whitespace characters gives back the value: the model of the
`strings.TrimSpace (encoded + newline)` step of `val2str`. -/
theorem trimSpace_delim (a : String) {cl cr : Char}
    (hc : isGoSpace cl = false) (hd : isGoSpace cr = false) :
    trimSpace ((String.mk [cl] ++ a ++ String.mk [cr]) ++ "\n") =
      String.mk [cl] ++ a ++ String.mk [cr] := by
  show String.mk (trimSpaceChars ((cl :: (a.data ++ [cr])) ++ ['\n'])) = _
  rw [trimSpaceChars_wrap hc hd]
  rfl

/-- C2: the value stringifier returns a string unmodified; returns the
literals "true"/"false" for booleans; returns a fixed-point decimal with
exactly six digits after the decimal point and no exponent for a number;
and for every other shape (null, array, object) returns the value's
compact JSON encoding — the defensive whitespace trim removes exactly the
encoder's trailing newline and nothing else. -/
theorem claim_C2_val2str_contract :
    (∀ s, val2str (Js.str s) = s) ∧
      (val2str (Js.bool true) = "true" ∧ val2str (Js.bool false) = "false") ∧
      (∀ q, isFixed6 (val2str (Js.num q)) = true) ∧
      (∀ v, isOtherShape v = true → val2str v = encodeJson v) := by
  refine ⟨fun s => rfl, ⟨rfl, rfl⟩, fun q => isFixed6_formatFloat6 q, ?_⟩
  intro v hv
  match v, hv with
  | .str s, hv => exact nomatch hv
  | .num q, hv => exact nomatch hv
  | .bool b, hv => exact nomatch hv
  | .null, _ =>
    show trimSpace (encodeJson Js.null ++ "\n") = encodeJson Js.null
    rw [show encodeJson Js.null = "null" from rfl]
    decide
  | .arr xs, _ =>
    show trimSpace (encodeJson (Js.arr xs) ++ "\n") = encodeJson (Js.arr xs)
    rw [show encodeJson (Js.arr xs) =
        "[" ++ joinWith "," (encodeJsonList xs) ++ "]" by rw [encodeJson]]
    exact trimSpace_delim _ (by decide) (by decide)
  | .obj kvs, _ =>
    show trimSpace (encodeJson (Js.obj kvs) ++ "\n") = encodeJson (Js.obj kvs)
    rw [show encodeJson (Js.obj kvs) =
        "\x7b" ++
          joinWith ","
            ((sortEncodedEntries (encodeJsonEntries kvs)).map
              (fun p => encodeJsonString p.1 ++ ":" ++ p.2)) ++ "\x7d"
      by rw [encodeJson]]
    exact trimSpace_delim _ (by decide) (by decide)

/-- C2 witness: the contract evaluated at concrete values of each shape. -/
theorem claim_C2_witness :
    val2str (Js.str "x") = "x" ∧
      isFixed6 (val2str (Js.num (qr 3 2 (by decide) (by decide)))) = true ∧
      val2str Js.null = encodeJson Js.null :=
  ⟨claim_C2_val2str_contract.1 "x",
    claim_C2_val2str_contract.2.2.1 (qr 3 2 (by decide) (by decide)),
    claim_C2_val2str_contract.2.2.2 Js.null (by decide)⟩

theorem runIndent_append (st : JState) (a b : List Char) :
    runIndent st (a ++ b) =
      ((runIndent (runIndent st a).1 b).1,
        (runIndent st a).2 ++ (runIndent (runIndent st a).1 b).2) := by
  induction a generalizing st with
  | nil => simp [runIndent]
  | cons c cs ih =>
    simp only [List.cons_append, runIndent]
    rw [show cs.append b = cs ++ b from rfl, ih]
    simp [List.append_assoc]

theorem runIndent_chain {st st1 st2 : JState} {a oa b ob : List Char}
    (ha : runIndent st a = (st1, oa)) (hb : runIndent st1 b = (st2, ob)) :
    runIndent st (a ++ b) = (st2, oa ++ ob) := by
  rw [runIndent_append, ha]
  simp [hb]

theorem digitChar_ne_specials {k : Nat} (h : k ≤ 9 ∨ (49 ≤ k ∧ k ≤ 54)) :
    ¬ digitChar k = '\\' ∧ ¬ digitChar k = '"' := by
  rcases h with h | ⟨h1, h2⟩
  · interval_cases k <;> exact ⟨by decide, by decide⟩
  · interval_cases k <;> exact ⟨by decide, by decide⟩

theorem runIndent_inStr_chunk (d : Nat) (ni : Bool) (c : Char) :
    runIndent ⟨d, ni, .inStr⟩ (escapeJsonChar c) =
      (⟨d, ni, .inStr⟩, escapeJsonChar c) := by
  unfold escapeJsonChar
  by_cases h1 : c = '"'
  · simp [h1, runIndent, indentStep]
  by_cases h2 : c = '\\'
  · simp [h1, h2, runIndent, indentStep]
  by_cases h3 : c = '\n'
  · simp [h1, h2, h3, runIndent, indentStep]
  by_cases h4 : c = '\r'
  · simp [h1, h2, h3, h4, runIndent, indentStep]
  by_cases h5 : c = '\t'
  · simp [h1, h2, h3, h4, h5, runIndent, indentStep]
  by_cases h6 : (c.toNat < 32 || c = '<' || c = '>' || c = '&') = true
  · have hbound : c.toNat ≤ 62 := by
      rcases Bool.or_eq_true _ _ |>.mp h6 with h | h
      · rcases Bool.or_eq_true _ _ |>.mp h with h | h
        · rcases Bool.or_eq_true _ _ |>.mp h with h | h
          · have := of_decide_eq_true h
            omega
          · rw [of_decide_eq_true h]
            decide
        · rw [of_decide_eq_true h]
          decide
      · rw [of_decide_eq_true h]
        decide
    have h16 : c.toNat / 16 ≤ 3 := by omega
    have ha1 : c.toNat / 16 / 10 * 39 + c.toNat / 16 ≤ 9 ∨
        (49 ≤ c.toNat / 16 / 10 * 39 + c.toNat / 16 ∧
          c.toNat / 16 / 10 * 39 + c.toNat / 16 ≤ 54) := by
      have h10 : c.toNat / 16 / 10 = 0 := Nat.div_eq_of_lt (by omega)
      omega
    have hm : c.toNat % 16 < 16 := Nat.mod_lt _ (by omega)
    have ha2 : c.toNat % 16 / 10 * 39 + c.toNat % 16 ≤ 9 ∨
        (49 ≤ c.toNat % 16 / 10 * 39 + c.toNat % 16 ∧
          c.toNat % 16 / 10 * 39 + c.toNat % 16 ≤ 54) := by
      rcases Nat.lt_or_ge (c.toNat % 16) 10 with hlt | hge
      · have h10 : c.toNat % 16 / 10 = 0 := Nat.div_eq_of_lt hlt
        omega
      · have h10 : c.toNat % 16 / 10 = 1 := by omega
        omega
    have hd1 := digitChar_ne_specials ha1
    have hd2 := digitChar_ne_specials ha2
    simp [h1, h2, h3, h4, h5, h6, runIndent, indentStep, hd1.1, hd1.2,
      hd2.1, hd2.2]
  · simp [h1, h2, h3, h4, h5, h6, runIndent, indentStep]

theorem runIndent_inStr_flat (d : Nat) (ni : Bool) :
    ∀ l : List Char,
      runIndent ⟨d, ni, .inStr⟩ (l.flatMap escapeJsonChar) =
        (⟨d, ni, .inStr⟩, l.flatMap escapeJsonChar)
  | [] => rfl
  | c :: rest => by
    rw [List.flatMap_cons]
    exact runIndent_chain (runIndent_inStr_chunk d ni c)
      (runIndent_inStr_flat d ni rest)

theorem runIndent_strlit (d : Nat) (s : String) :
    runIndent ⟨d, false, .normal⟩ (encodeJsonString s).data =
      (⟨d, false, .normal⟩, (encodeJsonString s).data) := by
  have hstep : runIndent ⟨d, false, .normal⟩ ['"'] = (⟨d, false, .inStr⟩, ['"']) := by
    simp [runIndent, indentStep, lbraceC, rbraceC]
  have hbody : runIndent ⟨d, false, .inStr⟩ (escapeJsonBody s) =
      (⟨d, false, .inStr⟩, escapeJsonBody s) := runIndent_inStr_flat d false s.data
  have hclose : runIndent ⟨d, false, .inStr⟩ ['"'] = (⟨d, false, .normal⟩, ['"']) := by
    simp [runIndent, indentStep]
  have h1 : runIndent ⟨d, false, .normal⟩ ('"' :: escapeJsonBody s) =
      (⟨d, false, .inStr⟩, '"' :: escapeJsonBody s) :=
    runIndent_chain hstep hbody
  exact runIndent_chain h1 hclose

theorem runIndent_boolLit (b : Bool) :
    runIndent ⟨3, false, .normal⟩ (formatBool b).data =
      (⟨3, false, .normal⟩, (formatBool b).data) := by
  cases b <;> rfl

theorem runIndent_fieldTail (f : SerializableField) :
    runIndent ⟨2, true, .normal⟩ (marshalFieldTail f).data =
      (⟨2, false, .normal⟩, (prettyFieldBodyTail f).data) := by
  have c1 : runIndent ⟨2, true, .normal⟩ ("\"name\":").data =
      (⟨3, false, .normal⟩, ("\n      \"name\": ").data) := rfl
  have c3 : runIndent ⟨3, false, .normal⟩ (",\"type\":").data =
      (⟨3, false, .normal⟩, (",\n      \"type\": ").data) := rfl
  have c5 : runIndent ⟨3, false, .normal⟩ (",\"nullable\":").data =
      (⟨3, false, .normal⟩, (",\n      \"nullable\": ").data) := rfl
  have c7 : runIndent ⟨3, false, .normal⟩ ("\x7d").data =
      (⟨2, false, .normal⟩, ("\n    \x7d").data) := rfl
  have e1 := runIndent_chain c1 (runIndent_strlit 3 f.name)
  have e2 := runIndent_chain e1 c3
  have e3 := runIndent_chain e2 (runIndent_strlit 3 f.type)
  have e4 := runIndent_chain e3 c5
  have e5 := runIndent_chain e4 (runIndent_boolLit f.nullable)
  exact runIndent_chain e5 c7

theorem runIndent_field_from2 (f : SerializableField) :
    runIndent ⟨2, false, .normal⟩ (marshalField f).data =
      (⟨2, false, .normal⟩, (prettyFieldBody f).data) := by
  have hopen : runIndent ⟨2, false, .normal⟩ ("\x7b").data =
      (⟨2, true, .normal⟩, ("\x7b").data) := rfl
  exact runIndent_chain hopen (runIndent_fieldTail f)

theorem runIndent_field_from1 (f : SerializableField) :
    runIndent ⟨1, true, .normal⟩ (marshalField f).data =
      (⟨2, false, .normal⟩, ("\n    " ++ prettyFieldBody f).data) := by
  have hopen : runIndent ⟨1, true, .normal⟩ ("\x7b").data =
      (⟨2, true, .normal⟩, ("\n    \x7b").data) := rfl
  have h := runIndent_chain hopen (runIndent_fieldTail f)
  exact h

theorem runIndent_fields_from2 :
    ∀ (f : SerializableField) (fs : List SerializableField),
      runIndent ⟨2, false, .normal⟩
          (joinWith "," ((f :: fs).map marshalField)).data =
        (⟨2, false, .normal⟩,
          (joinWith ",\n    " ((f :: fs).map prettyFieldBody)).data)
  | f, [] => runIndent_field_from2 f
  | f, g :: fs => by
    have hcomma : runIndent ⟨2, false, .normal⟩ (",").data =
        (⟨2, false, .normal⟩, (",\n    ").data) := rfl
    have h1 := runIndent_chain (runIndent_field_from2 f) hcomma
    have h2 := runIndent_chain h1 (runIndent_fields_from2 g fs)
    exact h2

theorem runIndent_fields_from1 (f : SerializableField) :
    ∀ fs : List SerializableField,
      runIndent ⟨1, true, .normal⟩
          (joinWith "," ((f :: fs).map marshalField)).data =
        (⟨2, false, .normal⟩,
          ("\n    " ++ joinWith ",\n    " ((f :: fs).map prettyFieldBody)).data)
  | [] => runIndent_field_from1 f
  | g :: fs => by
    have hcomma : runIndent ⟨2, false, .normal⟩ (",").data =
        (⟨2, false, .normal⟩, (",\n    ").data) := rfl
    have h1 := runIndent_chain (runIndent_field_from1 f) hcomma
    have h2 := runIndent_chain h1 (runIndent_fields_from2 g fs)
    exact h2

theorem str_ext {a b : String} (h : a.data = b.data) : a = b := by
  cases a with
  | mk da => cases b with
    | mk db => exact congrArg String.mk h

theorem joinWith_pretty :
    ∀ (f : SerializableField) (fs : List SerializableField),
      (joinWith ",\n" ((f :: fs).map prettyFieldSpec)).data =
        ("    " ++ joinWith ",\n    " ((f :: fs).map prettyFieldBody)).data
  | _, [] => rfl
  | f, g :: fs => by
    have ih := joinWith_pretty g fs
    show (prettyFieldSpec f ++ ",\n" ++
        joinWith ",\n" ((g :: fs).map prettyFieldSpec)).data = _
    simp only [String.data_append] at ih ⊢
    rw [ih]
    simp [prettyFieldSpec, String.data_append, List.append_assoc, joinWith]

theorem marshalSchemaIndent_eq_pretty (s : SerializableSchema) :
    marshalSchemaIndent s = prettySchemaSpec s := by
  cases s with
  | mk fields =>
    cases fields with
    | nil => decide
    | cons f fs =>
      have hhead : runIndent ⟨0, false, .normal⟩ ("\x7b\"fields\":").data =
          (⟨1, false, .normal⟩, ("\x7b\n  \"fields\": ").data) := rfl
      have hopen : runIndent ⟨1, false, .normal⟩ ("[").data =
          (⟨1, true, .normal⟩, ("[").data) := rfl
      have hjoin := runIndent_fields_from1 f fs
      have hclose : runIndent ⟨2, false, .normal⟩ ("]").data =
          (⟨1, false, .normal⟩, ("\n  ]").data) := rfl
      have hrb : runIndent ⟨1, false, .normal⟩ ("\x7d").data =
          (⟨0, false, .normal⟩, ("\n\x7d").data) := rfl
      have h1 := runIndent_chain hopen hjoin
      have h2 := runIndent_chain h1 hclose
      have h3 := runIndent_chain hhead h2
      have h4 := runIndent_chain h3 hrb
      have h5 : runIndent ⟨0, false, .normal⟩
          (marshalSchemaCompact ⟨f :: fs⟩).data =
          (⟨0, false, .normal⟩,
            ((("\x7b\n  \"fields\": ").data ++
              ((("[").data ++
                ("\n    " ++
                  joinWith ",\n    " ((f :: fs).map prettyFieldBody)).data) ++
                ("\n  ]").data)) ++ ("\n\x7d").data)) := h4
      apply str_ext
      show (runIndent ⟨0, false, .normal⟩ (marshalSchemaCompact ⟨f :: fs⟩).data).2 =
        (prettySchemaSpec ⟨f :: fs⟩).data
      rw [h5]
      show _ = ("\x7b\n  \"fields\": [\n" ++
        joinWith ",\n" ((f :: fs).map prettyFieldSpec) ++ "\n  ]\n\x7d").data
      simp only [String.data_append, joinWith_pretty f fs]
      simp [List.append_assoc]

/-- C4: the pretty serializer produces one output element per schema field,
in schema order, carrying the field's name and nullability, with the type
rendered as "float64"/"utf8"/"bool" for the three recognized arrow types
and as the collaborator's own type name otherwise (so no field is dropped,
only finer type precision can hide behind the pass-through name); and the
indented marshalling is exactly the expected document with a single
"fields" array and two spaces of indentation per nesting level. -/
theorem claim_C4_pretty_serializer (sch : ArrowSchema) :
    (toSerializableSchema sch).fields =
        sch.map (fun f => ⟨f.name, typeRender f.type, f.nullable⟩) ∧
      (toSerializableSchema sch).fields.length = sch.length ∧
      marshalSchemaIndent (toSerializableSchema sch) =
        prettySchemaSpec (toSerializableSchema sch) := by
  refine ⟨?_, by simp [toSerializableSchema], marshalSchemaIndent_eq_pretty _⟩
  unfold toSerializableSchema
  apply List.map_congr_left
  intro f _
  cases ht : f.type <;> simp [typeRender, ht]
